import Mathlib

/-!
Verification development for the fatbox file-upload relay (`server.go`, `db.go`).

The Go code is shallowly embedded as follows.

* Bytes are `Nat`s, file contents are `List Nat`.
* A directory entry (`os.DirEntry`) is an `Entry`: its name, whether it is a
  directory, and its content; `content = none` models a file whose open/read
  fails with an I/O error when the assembler tries to read it.
* A session directory is `Option (List Entry)`: `none` models a directory that
  does not exist (so `os.ReadDir` fails), `some entries` models an existing
  directory whose listing is `entries`.  `os.ReadDir` returns entries sorted by
  filename, which `dirInsert` maintains when the directory is built through
  chunk uploads.
* `sort.Slice` runs Go's pdqsort, which for slices of at most 12 elements is
  exactly insertion sort (`goInsertionSort` below).  For a comparator that is a
  strict weak order with distinct keys — the situation of every fully parseable
  session — the sorted permutation is unique, so `goInsertionSort` agrees with
  pdqsort at every length there; only statements about sessions containing
  unparseable chunk names carry an explicit `length ≤ 12` hypothesis.
* The SHA-256 digest of `calculateFileHash` is abstracted as a function
  parameter `hashFn : List Nat → String`; the database of `db.go` as a lookup
  function `cache : String → CacheRecord` plus a flag `storeOk : Bool` telling
  whether `db.Exec` in `storeUrl` succeeds.  Hashing and lookup are modelled as
  total (their own I/O failure paths are not needed by any claim).
* The backend's HTTP response is a parameter `resp : Option HttpResp`:
  `none` models `client.Do` failing (network error/timeout); otherwise the
  status code, the raw body, and — for pomf — the result of `json.Unmarshal`
  on the body, given as an already-structured `Option PomfParsed`.
-/

namespace Fatbox

/-- Byte-wise lexicographic comparison of names, as `os.ReadDir` uses to sort
directory entries (Go compares filenames as byte strings; chunk names here are
ASCII, where byte order and character order agree). -/
def charListLt : List Char → List Char → Bool
  | [], [] => false
  | [], _ :: _ => true
  | _ :: _, [] => false
  | a :: as, b :: bs => if a < b then true else if b < a then false else charListLt as bs

/-- Filename order used by the directory model. -/
def nameLt (a b : String) : Bool := charListLt a.data b.data

/-- Go `strings.HasPrefix s p`: `p` is a byte prefix of `s`. -/
def goStartsWith (s p : String) : Bool := p.data.isPrefixOf s.data

/-- Go `strings.TrimPrefix s p`: drops the leading `p` when present. -/
def goTrimPre (s p : String) : String :=
  if goStartsWith s p then String.mk (s.data.drop p.data.length) else s

/-- Decimal digit value of a character, as Go's `strconv` digit check. -/
def digToNat (c : Char) : Option Nat :=
  if '0' ≤ c ∧ c ≤ '9' then some (c.toNat - 48) else none

/-- Accumulating decimal parse of a digit run; fails on any non-digit. -/
def parseDigits : List Char → Nat → Option Nat
  | [], acc => some acc
  | c :: cs, acc =>
    match digToNat c with
    | none => none
    | some d => parseDigits cs (acc * 10 + d)

/-- Decimal parse of a nonempty digit run. -/
def atoiDigits : List Char → Option Nat
  | [] => none
  | c :: cs => parseDigits (c :: cs) 0

/-- Go `strconv.Atoi`: optional sign, then a nonempty run of decimal digits;
values outside the 64-bit `int` range are an error (`ErrRange`). -/
def goAtoi (s : String) : Option Int :=
  match s.data with
  | '-' :: rest =>
    (atoiDigits rest).bind fun n =>
      if n ≤ 9223372036854775808 then some (-(n : Int)) else none
  | '+' :: rest =>
    (atoiDigits rest).bind fun n =>
      if n ≤ 9223372036854775807 then some ((n : Int)) else none
  | l =>
    (atoiDigits l).bind fun n =>
      if n ≤ 9223372036854775807 then some ((n : Int)) else none

/-- Directory entry as seen by `os.ReadDir`; `content = none` models a file
whose open/copy fails with an I/O error when read back. -/
structure Entry where
  name : String
  isDir : Bool
  content : Option (List Nat)
  deriving DecidableEq, Repr

/-- Insertion into a name-sorted directory listing.  Writing a file whose name
already exists truncates and replaces it (`os.Create`), so an equal name
overwrites in place. -/
def dirInsert (e : Entry) : List Entry → List Entry
  | [] => [e]
  | f :: rest =>
    if nameLt e.name f.name then e :: f :: rest
    else if e.name = f.name then e :: rest
    else f :: dirInsert e rest

/-- Chunk file name written by `chunkHandler`: `fmt.Sprintf("chunk_%s", index)`. -/
def chunkName (index : String) : String := "chunk_" ++ index

/-- Entry created in the session directory by `chunkHandler` for one upload. -/
def chunkEntry (u : String × List Nat) : Entry :=
  { name := chunkName u.1, isDir := false, content := some u.2 }

/-- Storage effect of `chunkHandler`: lazily create the session directory
(`os.MkdirAll`) and write the chunk file (`os.Create` + `io.Copy`). -/
def putChunk (dir : Option (List Entry)) (index : String) (bytes : List Nat) :
    Option (List Entry) :=
  some (dirInsert (chunkEntry (index, bytes)) (dir.getD []))

/-- Session directory contents after a sequence of chunk uploads, in arrival
order, starting from no directory. -/
def uploadAll (l : List (String × List Nat)) : Option (List Entry) :=
  l.foldl (fun d u => putChunk d u.1 u.2) none

/-- Filter applied by `assembleChunks` to the directory listing:
`!e.IsDir() && strings.HasPrefix(e.Name(), "chunk_")`. -/
def isChunkFile (e : Entry) : Bool := !e.isDir && goStartsWith e.name "chunk_"

/-- Chunk names `assembleChunks` collects from the session directory listing. -/
def selectChunks (entries : List Entry) : List String :=
  (entries.filter isChunkFile).map Entry.name

/-- Numeric index of a chunk name:
`strconv.Atoi(strings.TrimPrefix(name, "chunk_"))`. -/
def chunkKey (n : String) : Option Int := goAtoi (goTrimPre n "chunk_")

/-- Comparator passed to `sort.Slice` by `assembleChunks`: `false` whenever
either index fails to parse, otherwise numeric order. -/
def chunkLess (a b : String) : Bool :=
  match chunkKey a, chunkKey b with
  | some ni, some nj => decide (ni < nj)
  | _, _ => false

/-- Step of Go's insertion sort on a reversed prefix: the freshly appended
element bubbles left past elements `e` while `lt x e`, and stops at the first
`e` with `¬ lt x e`.  The list argument is the already-processed prefix stored
in reverse (head = rightmost element). -/
def insertRev (lt : α → α → Bool) (x : α) : List α → List α
  | [] => [x]
  | e :: rest => if lt x e then e :: insertRev lt x rest else x :: e :: rest

/-- Reversed result of running Go's insertion sort left to right. -/
def insFold (lt : α → α → Bool) (l : List α) : List α :=
  l.foldl (fun acc x => insertRev lt x acc) []

/-- Go's `insertionSort` from the `sort` package, the algorithm `sort.Slice`
(pdqsort) runs on slices of at most 12 elements. -/
def goInsertionSort (lt : α → α → Bool) (l : List α) : List α :=
  (insFold lt l).reverse

/-- Concatenation loop of `assembleChunks`: read each chunk by name from the
session directory and append it to the artifact file.  Returns the result and
the bytes actually written to the artifact file before returning (on an I/O
error the partial write remains in the file). -/
def assembleLoop (entries : List Entry) :
    List String → List Nat → Except String (List Nat) × List Nat
  | [], acc => (Except.ok acc, acc)
  | n :: rest, acc =>
    match (entries.find? fun e => e.name = n) with
    | none => (Except.error ("error opening chunk " ++ n ++ " for reading"), acc)
    | some e =>
      match e.content with
      | none => (Except.error ("error opening chunk " ++ n ++ " for reading"), acc)
      | some c => assembleLoop entries rest (acc ++ c)

/-- Decidable equality for `Except`, used to evaluate concrete assembly and
pipeline outcomes. -/
instance exceptDecEq {ε α : Type} [DecidableEq ε] [DecidableEq α] :
    DecidableEq (Except ε α) := fun a b =>
  match a, b with
  | Except.ok x, Except.ok y =>
    if h : x = y then Decidable.isTrue (by rw [h])
    else Decidable.isFalse (fun hh => h (Except.ok.inj hh))
  | Except.error x, Except.error y =>
    if h : x = y then Decidable.isTrue (by rw [h])
    else Decidable.isFalse (fun hh => h (Except.error.inj hh))
  | Except.ok _, Except.error _ => Decidable.isFalse (fun hh => Except.noConfusion hh)
  | Except.error _, Except.ok _ => Decidable.isFalse (fun hh => Except.noConfusion hh)

/-- Outcome of `assembleChunks`: the returned value and the temporary artifact
file left on disk by the call (`none` when the final file was never created;
`os.Create` itself is modelled as succeeding, as on its failure Go returns
before writing anything). -/
structure AssembleOut where
  result : Except String (List Nat)
  temp : Option (List Nat)
  deriving DecidableEq, Repr

/-- Model of `assembleChunks`: list the session directory (failing when it does
not exist), keep `chunk_`-files, sort with `sort.Slice` under `chunkLess`,
create the artifact file, and concatenate the chunks into it in sorted order. -/
def assembleChunks (dir : Option (List Entry)) : AssembleOut :=
  match dir with
  | none => { result := Except.error "no chunks found", temp := none }
  | some entries =>
    let sorted := goInsertionSort chunkLess (selectChunks entries)
    let r := assembleLoop entries sorted []
    { result := r.1, temp := some r.2 }

/-- Cached URLs for one content fingerprint, the row `GetURLsByHash` reads:
`sql.NullString` becomes `Option String`.  A fingerprint with no row at all
yields the empty record (both fields `none`), not an error. -/
structure CacheRecord where
  catboxUrl : Option String
  pomfUrl : Option String
  deriving DecidableEq, Repr

/-- Cached URL chosen by `processAndForwardFile` for a destination:
`catbox`/`pomf` read their column when it is set, everything else (and an unset
column) leaves `cachedURL` as the empty string. -/
def cachedUrlFor (destination : String) (record : CacheRecord) : String :=
  if destination = "catbox" ∧ record.catboxUrl.isSome then record.catboxUrl.getD ""
  else if destination = "pomf" ∧ record.pomfUrl.isSome then record.pomfUrl.getD ""
  else ""

/-- Model of `storeUrl` from `db.go`: only `catbox` and `pomf` have an upsert
query; any other destination is rejected before touching the database.
`storeOk` tells whether `db.Exec` succeeds; on success the upserted
`(hash, destination, url)` triple is reported. -/
def storeUrl (storeOk : Bool) (hash destination url : String) :
    Except String (String × String × String) :=
  if destination = "catbox" ∨ destination = "pomf" then
    if storeOk then Except.ok (hash, destination, url)
    else Except.error "database insert/update failed"
  else Except.error ("cannot store URL for unsupported destination: " ++ destination)

/-- Structured pomf response, the shape `json.Unmarshal` decodes:
`{success, files:[{url}], error}` with each file reduced to its URL. -/
structure PomfParsed where
  success : Bool
  files : List String
  error : String
  deriving DecidableEq, Repr

/-- Backend HTTP response: status code, raw body, and — consulted only for
pomf — the outcome of `json.Unmarshal` on the body (`none` = decode error). -/
structure HttpResp where
  status : Nat
  body : String
  pomf : Option PomfParsed
  deriving DecidableEq, Repr

/-- Outcome of `forwardToDestination`: the returned value, whether the HTTP
request was performed (`client.Do`), and the multipart form fields and file
part name written for it. -/
structure ForwardOutcome where
  result : Except String String
  networkCalled : Bool
  fieldsSent : List (String × String)
  filePart : String
  deriving DecidableEq, Repr

/-- Backend URL table of `forwardToDestination`; a destination outside the
table fails before any network I/O. -/
def urlMapLookup (destination : String) : Option String :=
  if destination = "pomf" then some "https://pomf.lain.la/upload.php"
  else if destination = "catbox" then some "https://catbox.moe/user/api.php"
  else if destination = "litterbox" then some "https://litterbox.catbox.moe/resources/internals/api.php"
  else none

/-- Multipart form fields written by the producer goroutine of
`forwardToDestination`: `reqtype=fileupload` for catbox/litterbox, plus the
user hash for catbox when present and the ttl for litterbox; pomf has none. -/
def goMultipartFields (destination userhash timeVal : String) : List (String × String) :=
  if destination = "catbox" then
    ("reqtype", "fileupload") :: (if userhash ≠ "" then [("userhash", userhash)] else [])
  else if destination = "litterbox" then
    [("reqtype", "fileupload"), ("time", timeVal)]
  else []

/-- File part field name of the multipart request: `files[]` for pomf,
`fileToUpload` for catbox and litterbox. -/
def filePartName (destination : String) : String :=
  if destination = "pomf" then "files[]" else "fileToUpload"

/-- Response handling of `forwardToDestination` once `client.Do` returned a
response: a non-200 status is an error carrying the status code and the raw
body; a 200 response yields the pomf JSON parse (success flag, then the first
file URL) for pomf and the raw body for the other backends. -/
def forwardResult (destination : String) (r : HttpResp) : Except String String :=
  if r.status ≠ 200 then
    Except.error ("upload failed with status " ++ toString r.status ++ ": " ++ r.body)
  else if destination = "pomf" then
    match r.pomf with
    | none => Except.error "failed to parse pomf response"
    | some p =>
      if p.success = false then Except.error ("pomf upload failed: " ++ p.error)
      else
        match p.files with
        | [] => Except.error "pomf response missing file URL"
        | f :: _ => Except.ok f
  else Except.ok r.body

/-- Model of `forwardToDestination`.  An unknown destination fails before any
network I/O.  Otherwise the multipart body (form fields and file part) is
produced and the POST performed: `resp = none` is a failed `client.Do`, and a
received response is handled by `forwardResult`.  The source file is modelled
as readable (an unreadable file would abort the request through the pipe; no
claim depends on it). -/
def forwardToDestination (destination userhash timeVal : String)
    (resp : Option HttpResp) : ForwardOutcome :=
  match urlMapLookup destination with
  | none =>
    { result := Except.error ("destination '" ++ destination ++ "' is not supported")
      networkCalled := false, fieldsSent := [], filePart := "" }
  | some _ =>
    { result :=
        match resp with
        | none => Except.error "http request failed"
        | some r => forwardResult destination r
      networkCalled := true
      fieldsSent := goMultipartFields destination userhash timeVal
      filePart := filePartName destination }

/-- Effects and response of one `processAndForwardFile` call: the HTTP response
written to the client (`Except (status, message) url`), whether the artifact
was fingerprinted, the fingerprints looked up in the dedup store, the forwards
performed (destination with the multipart fields sent), and the successful
dedup-store writes. -/
structure PipeResult where
  response : Except (Nat × String) String
  hashed : Bool
  lookups : List String
  forwards : List (String × List (String × String))
  upserts : List (String × String × String)
  deriving DecidableEq, Repr

/-- Forward calls recorded for the trace: one entry when the HTTP request was
actually performed. -/
def forwardsOf (destination : String) (fo : ForwardOutcome) :
    List (String × List (String × String)) :=
  if fo.networkCalled then [(destination, fo.fieldsSent)] else []

/-- Model of `processAndForwardFile`.  Litterbox skips hashing, lookup and
upsert entirely and always forwards.  Other destinations hash the artifact,
look the fingerprint up, return a set cached URL directly, and otherwise
forward and then upsert — an upsert failure is logged and swallowed, the
forwarded URL is still returned. -/
def processAndForwardFile (destination userhash timeVal : String)
    (hashFn : List Nat → String) (content : List Nat)
    (cache : String → CacheRecord) (resp : Option HttpResp) (storeOk : Bool) :
    PipeResult :=
  if destination = "litterbox" then
    let fo := forwardToDestination destination userhash timeVal resp
    match fo.result with
    | Except.error e =>
      { response := Except.error (500, "Upload failed: " ++ e)
        hashed := false, lookups := [], forwards := forwardsOf destination fo, upserts := [] }
    | Except.ok url =>
      { response := Except.ok url
        hashed := false, lookups := [], forwards := forwardsOf destination fo, upserts := [] }
  else
    let hash := hashFn content
    let record := cache hash
    let cachedURL := cachedUrlFor destination record
    if cachedURL ≠ "" then
      { response := Except.ok cachedURL
        hashed := true, lookups := [hash], forwards := [], upserts := [] }
    else
      let fo := forwardToDestination destination userhash timeVal resp
      match fo.result with
      | Except.error e =>
        { response := Except.error (500, "Upload failed: " ++ e)
          hashed := true, lookups := [hash], forwards := forwardsOf destination fo, upserts := [] }
      | Except.ok url =>
        match storeUrl storeOk hash destination url with
        | Except.ok rec =>
          { response := Except.ok url
            hashed := true, lookups := [hash], forwards := forwardsOf destination fo, upserts := [rec] }
        | Except.error _ =>
          { response := Except.ok url
            hashed := true, lookups := [hash], forwards := forwardsOf destination fo, upserts := [] }

/-- Outcome of one `finishHandler` request: the HTTP response, the session
directory and the request's temporary artifacts left on transient storage
after the handler (deferred calls included) finishes, and the pipeline trace
when it was reached. -/
structure FinishOut where
  response : Except (Nat × String) String
  sessionDirAfter : Option (List Entry)
  tempLeft : List (List Nat)
  pipe : Option PipeResult

/-- Model of `finishHandler`.  The ttl defaults to `"1h"`; missing form fields
are a 400 before `defer os.RemoveAll(chunkDir)` is registered, so the session
directory survives that path.  After a registered defer the session directory
is always removed.  `defer os.Remove(finalPath)` is registered only when
`assembleChunks` returned without error, so on an assembly error the artifact
file it already created stays on disk. -/
def finishHandler (uploadId filename userhash destination tForm : String)
    (dir : Option (List Entry)) (hashFn : List Nat → String)
    (cache : String → CacheRecord) (resp : Option HttpResp) (storeOk : Bool) :
    FinishOut :=
  let timeVal := if tForm = "" then "1h" else tForm
  if uploadId = "" ∨ filename = "" ∨ destination = "" then
    { response := Except.error (400, "Missing uploadId, filename, or destination")
      sessionDirAfter := dir, tempLeft := [], pipe := none }
  else
    let a := assembleChunks dir
    match a.result with
    | Except.error e =>
      { response := Except.error (500, e)
        sessionDirAfter := none, tempLeft := a.temp.toList, pipe := none }
    | Except.ok content =>
      let pr := processAndForwardFile destination userhash timeVal hashFn content cache resp storeOk
      { response := pr.response
        sessionDirAfter := none, tempLeft := [], pipe := some pr }

/-- Outcome of one `directHandler` request. -/
structure DirectOut where
  response : Except (Nat × String) String
  tempLeft : List (List Nat)
  pipe : Option PipeResult

/-- Model of `directHandler`: a missing file part is a 400; otherwise the file
is written to a fresh temporary path whose removal is deferred immediately
(so it never survives the request), the ttl defaults to `"1h"`, and the
pipeline runs on the file's bytes. -/
def directHandler (destination tForm userhash : String) (file : Option (List Nat))
    (hashFn : List Nat → String) (cache : String → CacheRecord)
    (resp : Option HttpResp) (storeOk : Bool) : DirectOut :=
  match file with
  | none => { response := Except.error (400, "Missing file"), tempLeft := [], pipe := none }
  | some content =>
    let timeVal := if tForm = "" then "1h" else tForm
    let pr := processAndForwardFile destination userhash timeVal hashFn content cache resp storeOk
    { response := pr.response, tempLeft := [], pipe := some pr }

/-- Contents read back for a chunk name during assembly. -/
def contentOf (entries : List Entry) (n : String) : List Nat :=
  (((entries.find? fun e => e.name = n)).bind Entry.content).getD []

/-- Numeric index of one chunk upload, for stating the specified ordering:
the integer carried by the index string (spec-side definition). -/
def uploadIndex (u : String × List Nat) : Int := (goAtoi u.1).getD 0

/-- Ordering stated by the spec for the assembled artifact: the uploads sorted
ascending by numeric index (spec-side definition, with Mathlib's insertion
sort as the reference sort). -/
def specSortUploads (l : List (String × List Nat)) : List (String × List Nat) :=
  List.insertionSort (fun u v => uploadIndex u ≤ uploadIndex v) l

/-- Artifact stated by the spec: the concatenation of the chunks' bytes sorted
by ascending numeric index (spec-side definition). -/
def specAssembled (l : List (String × List Nat)) : List Nat :=
  ((specSortUploads l).map Prod.snd).flatten

/-- Numeric key of a chunk name, defaulting to 0 for unparseable names. -/
def nameKey (n : String) : Int := (chunkKey n).getD 0

/-- Demonstration uploads of end-to-end scenario 1: chunks arrive in order
index 1 (payload "B"), index 0 (payload "A"), index 2 (payload "C"). -/
def demoUploads : List (String × List Nat) := [("1", [66]), ("0", [65]), ("2", [67])]

/-- Session directory listing whose second chunk fails to read back, the
failing input for the mid-concatenation cleanup claim. -/
def leakDir : List Entry := [⟨"chunk_0", false, some [65]⟩, ⟨"chunk_1", false, none⟩]

/-- Session directory listing mixing parseable and unparseable chunk indices:
`chunk_10` and `chunk_5` parse, `chunk_3x` does not; `os.ReadDir` lists them
in this (byte-lexicographic) order. -/
def mixDir : List Entry :=
  [⟨"chunk_10", false, some [65]⟩, ⟨"chunk_3x", false, some [66]⟩, ⟨"chunk_5", false, some [67]⟩]

/-! Helper lemmas about the forwarder and the pipeline. -/

lemma data_append (s t : String) : (s ++ t).data = s.data ++ t.data := rfl

lemma forward_known (destination uh tv : String) (resp : Option HttpResp) (u : String)
    (h : urlMapLookup destination = some u) :
    forwardToDestination destination uh tv resp =
      { result :=
          match resp with
          | none => Except.error "http request failed"
          | some r => forwardResult destination r
        networkCalled := true
        fieldsSent := goMultipartFields destination uh tv
        filePart := filePartName destination } := by
  simp [forwardToDestination, h]

lemma litterbox_url :
    urlMapLookup "litterbox" = some "https://litterbox.catbox.moe/resources/internals/api.php" := by
  decide

lemma litterbox_trace (uh tv : String) (hashFn : List Nat → String) (content : List Nat)
    (cache : String → CacheRecord) (resp : Option HttpResp) (storeOk : Bool) :
    (processAndForwardFile "litterbox" uh tv hashFn content cache resp storeOk).hashed = false ∧
    (processAndForwardFile "litterbox" uh tv hashFn content cache resp storeOk).lookups = [] ∧
    (processAndForwardFile "litterbox" uh tv hashFn content cache resp storeOk).upserts = [] ∧
    (processAndForwardFile "litterbox" uh tv hashFn content cache resp storeOk).forwards =
      [("litterbox", goMultipartFields "litterbox" uh tv)] := by
  have hf := forward_known "litterbox" uh tv resp _ litterbox_url
  cases resp with
  | none => simp [processAndForwardFile, hf, forwardsOf]
  | some r =>
    cases hres : forwardResult "litterbox" r with
    | error e => simp [processAndForwardFile, hf, forwardsOf, hres]
    | ok url => simp [processAndForwardFile, hf, forwardsOf, hres]

lemma upserts_empty_of_error (destination uh tv : String) (hashFn : List Nat → String)
    (content : List Nat) (cache : String → CacheRecord) (storeOk : Bool)
    (resp : Option HttpResp) (e : String)
    (hres : (forwardToDestination destination uh tv resp).result = Except.error e) :
    (processAndForwardFile destination uh tv hashFn content cache resp storeOk).upserts = [] := by
  by_cases hl : destination = "litterbox"
  · subst hl; simp [processAndForwardFile, hres]
  · by_cases hc : cachedUrlFor destination (cache (hashFn content)) = ""
    · simp [processAndForwardFile, hl, hc, hres]
    · simp [processAndForwardFile, hl, hc]

lemma status_and_body_substrings (st : Nat) (body : String) :
    (toString st).data <:+: ("upload failed with status " ++ toString st ++ ": " ++ body).data ∧
    body.data <:+: ("upload failed with status " ++ toString st ++ ": " ++ body).data := by
  constructor
  · exact ⟨"upload failed with status ".data, ": ".data ++ body.data, by simp [data_append]⟩
  · exact ⟨"upload failed with status ".data ++ (toString st).data ++ ": ".data, [],
      by simp [data_append]⟩

lemma forward_non200 (destination uh tv : String) (status : Nat) (body : String)
    (pd : Option PomfParsed) (u : String)
    (hknown : urlMapLookup destination = some u) (h : status ≠ 200) :
    (forwardToDestination destination uh tv (some ⟨status, body, pd⟩)).result =
      Except.error ("upload failed with status " ++ toString status ++ ": " ++ body) := by
  simp [forward_known destination uh tv _ u hknown, forwardResult, h]

/-! Helper lemmas about Go's insertion sort (`sort.Slice` on short slices). -/

lemma insertRev_perm {α : Type} (lt : α → α → Bool) (x : α) :
    ∀ acc : List α, (insertRev lt x acc).Perm (x :: acc)
  | [] => List.Perm.refl _
  | e :: rest => by
    by_cases h : lt x e
    · simp only [insertRev, h, if_true]
      exact ((insertRev_perm lt x rest).cons e).trans (List.Perm.swap x e rest)
    · simp [insertRev, h]

lemma insFold_perm {α : Type} (lt : α → α → Bool) : ∀ (l acc : List α),
    (l.foldl (fun a x => insertRev lt x a) acc).Perm (l ++ acc)
  | [], acc => by simp
  | x :: l, acc => by
    have ih := insFold_perm lt l (insertRev lt x acc)
    refine ih.trans ?_
    refine ((insertRev_perm lt x acc).append_left l).trans ?_
    exact List.perm_middle

lemma goInsertionSort_perm {α : Type} (lt : α → α → Bool) (l : List α) :
    (goInsertionSort lt l).Perm l := by
  have h := insFold_perm lt l []
  simp only [List.append_nil] at h
  exact (List.reverse_perm _).trans h

lemma insertRev_split {α : Type} (lt : α → α → Bool) (x : α) : ∀ acc : List α,
    ∃ a₂ a₁, acc = a₂ ++ a₁ ∧ insertRev lt x acc = a₂ ++ x :: a₁ ∧ ∀ e ∈ a₂, lt x e = true
  | [] => ⟨[], [], rfl, rfl, by simp⟩
  | e :: rest => by
    by_cases h : lt x e
    · obtain ⟨a₂, a₁, h1, h2, h3⟩ := insertRev_split lt x rest
      refine ⟨e :: a₂, a₁, by simp [h1], by simp [insertRev, h, h2], ?_⟩
      intro f hf
      rcases List.mem_cons.mp hf with hf | hf
      · subst hf; exact h
      · exact h3 f hf
    · exact ⟨[], e :: rest, rfl, by simp [insertRev, h], by simp⟩

lemma insertRev_chain {α : Type} (lt : α → α → Bool)
    (hasym : ∀ a b, lt a b = true → lt b a = false) (x : α) :
    ∀ acc : List α, List.Chain' (fun a b => lt a b = false) acc →
      List.Chain' (fun a b => lt a b = false) (insertRev lt x acc)
  | [], _ => List.chain'_singleton x
  | e :: rest, hch => by
    have hch' := List.chain'_cons'.mp hch
    by_cases h : lt x e
    · simp only [insertRev, h, if_true]
      refine List.chain'_cons'.mpr ⟨?_, insertRev_chain lt hasym x rest hch'.2⟩
      intro y hy
      cases rest with
      | nil =>
        simp only [insertRev, List.head?] at hy
        cases hy
        exact hasym x e h
      | cons f rest' =>
        by_cases h2 : lt x f
        · simp only [insertRev, h2, if_true, List.head?] at hy
          cases hy
          exact hch'.1 y rfl
        · simp only [insertRev, h2, if_false, List.head?] at hy
          cases hy
          exact hasym x e h
    · have hxe : lt x e = false := by simpa using h
      simp only [insertRev, h, if_false]
      exact List.chain'_cons'.mpr ⟨fun y hy => by cases hy; exact hxe, hch⟩

lemma insFold_chain {α : Type} (lt : α → α → Bool)
    (hasym : ∀ a b, lt a b = true → lt b a = false) :
    ∀ (l acc : List α), List.Chain' (fun a b => lt a b = false) acc →
      List.Chain' (fun a b => lt a b = false) (l.foldl (fun a x => insertRev lt x a) acc)
  | [], _, hch => hch
  | x :: l, acc, hch =>
    insFold_chain lt hasym l (insertRev lt x acc) (insertRev_chain lt hasym x acc hch)

lemma goInsertionSort_chain {α : Type} (lt : α → α → Bool)
    (hasym : ∀ a b, lt a b = true → lt b a = false) (l : List α) :
    List.Chain' (fun a b => lt b a = false) (goInsertionSort lt l) := by
  have h := insFold_chain lt hasym l [] List.chain'_nil
  exact List.chain'_reverse.mpr h

lemma insFold_fixes_bad {α : Type} (lt : α → α → Bool) (bad : α → Prop)
    (hb : ∀ x y, bad x → lt x y = false) (hb2 : ∀ x y, bad y → lt x y = false)
    (l : List α) :
    ∀ (i : Nat) (n : α), l[i]? = some n → bad n →
      (l.foldl (fun a x => insertRev lt x a) []).reverse[i]? = some n := by
  induction l using List.reverseRecOn with
  | nil => intro i n h; simp at h
  | append_singleton l x ih =>
    intro i n hi hbad
    rw [List.foldl_append]
    have hstep : List.foldl (fun a x => insertRev lt x a)
          (List.foldl (fun a x => insertRev lt x a) [] l) [x]
        = insertRev lt x (List.foldl (fun a x => insertRev lt x a) [] l) := rfl
    rw [hstep]
    set acc := List.foldl (fun a x => insertRev lt x a) [] l with hacc
    have hlen : acc.length = l.length := by
      have := (insFold_perm lt l []).length_eq
      simpa [hacc] using this
    obtain ⟨a₂, a₁, hsplit, hins, ha₂⟩ := insertRev_split lt x acc
    by_cases hcase : i < l.length
    · have hl : l[i]? = some n := by rwa [List.getElem?_append_left hcase] at hi
      have hold : acc.reverse[i]? = some n := ih i n hl hbad
      have hrev : acc.reverse = a₁.reverse ++ a₂.reverse := by
        rw [hsplit, List.reverse_append]
      by_cases h1 : i < a₁.reverse.length
      · have hval : a₁.reverse[i]? = some n := by
          rw [hrev, List.getElem?_append_left h1] at hold; exact hold
        rw [hins, List.reverse_append, List.reverse_cons, List.append_assoc,
          List.getElem?_append_left h1]
        exact hval
      · exfalso
        have h1' : a₁.reverse.length ≤ i := Nat.le_of_not_lt h1
        have hval : a₂.reverse[i - a₁.reverse.length]? = some n := by
          rw [hrev, List.getElem?_append_right h1'] at hold; exact hold
        have hmem : n ∈ a₂ := by
          have := List.getElem?_mem hval
          simpa using this
        have htrue := ha₂ n hmem
        rw [hb2 x n hbad] at htrue
        cases htrue
    · have hge : l.length ≤ i := Nat.le_of_not_lt hcase
      rw [List.getElem?_append_right hge] at hi
      have hnx : n = x ∧ i = l.length := by
        cases h0 : i - l.length with
        | zero =>
          rw [h0] at hi; simp at hi
          exact ⟨hi.symm, by omega⟩
        | succ k => rw [h0] at hi; simp at hi
      obtain ⟨hnx, hieq⟩ := hnx
      subst hnx
      have ha2nil : a₂ = [] := by
        cases ha2c : a₂ with
        | nil => rfl
        | cons f fs =>
          exfalso
          have htrue := ha₂ f (by rw [ha2c]; simp)
          rw [hb n f hbad] at htrue
          cases htrue
      rw [ha2nil] at hins hsplit
      simp only [List.nil_append] at hins hsplit
      rw [hins, List.reverse_cons, hieq]
      have hlen1 : a₁.reverse.length = l.length := by
        rw [List.length_reverse, ← hsplit, hlen]
      rw [List.getElem?_append_right (by omega), hlen1]
      simp

lemma chunkLess_bad_left (x y : String) (h : chunkKey x = none) : chunkLess x y = false := by
  simp [chunkLess, h]

lemma chunkLess_bad_right (x y : String) (h : chunkKey y = none) : chunkLess x y = false := by
  cases hx : chunkKey x <;> simp [chunkLess, hx, h]

/-! Helper lemmas about chunk names and the session directory. -/

lemma isPrefixOf_append (p s : List Char) : p.isPrefixOf (p ++ s) = true := by
  induction p with
  | nil => simp [List.isPrefixOf]
  | cons c cs ih => simp [List.isPrefixOf, ih]

lemma goStartsWith_append (p t : String) : goStartsWith (p ++ t) p = true := by
  simp [goStartsWith, data_append, isPrefixOf_append]

lemma mk_data (s : String) : String.mk s.data = s := by cases s; rfl

lemma goTrimPre_append (p t : String) : goTrimPre (p ++ t) p = t := by
  rw [goTrimPre, if_pos (goStartsWith_append p t)]
  rw [data_append, List.drop_left, mk_data]

lemma chunkKey_chunkName (i : String) : chunkKey (chunkName i) = goAtoi i := by
  rw [chunkKey, chunkName, goTrimPre_append]

lemma chunkName_inj {a b : String} (h : chunkName a = chunkName b) : a = b := by
  rw [chunkName, chunkName] at h
  have hd : ("chunk_" : String).data ++ a.data = ("chunk_" : String).data ++ b.data := by
    have := congrArg String.data h
    simpa [data_append] using this
  have hab := List.append_cancel_left hd
  cases a; cases b
  exact congrArg String.mk hab

lemma chunkLess_asymm (a b : String) (h : chunkLess a b = true) : chunkLess b a = false := by
  cases ha : chunkKey a with
  | none => simp [chunkLess, ha] at h
  | some ka =>
    cases hb : chunkKey b with
    | none => simp [chunkLess, ha, hb] at h
    | some kb =>
      simp only [chunkLess, ha, hb, decide_eq_true_eq] at h
      simp only [chunkLess, ha, hb, decide_eq_false_iff_not]
      omega

lemma find?_unique {α : Type} (p : α → Bool) (x : α) : ∀ l : List α, x ∈ l → p x = true →
    (∀ y ∈ l, p y = true → y = x) → l.find? p = some x
  | [], hx, _, _ => absurd hx (List.not_mem_nil x)
  | e :: rest, hx, hp, hu => by
    by_cases he : p e = true
    · have : e = x := hu e (by simp) he
      subst this
      rw [List.find?_cons_of_pos _ he]
    · rw [List.find?_cons_of_neg _ he]
      have hxr : x ∈ rest := by
        rcases List.mem_cons.mp hx with h | h
        · exact absurd (h ▸ hp) he
        · exact h
      exact find?_unique p x rest hxr hp (fun y hy hpy => hu y (by simp [hy]) hpy)

lemma chain'_imp_of_mem {α : Type} {R Q : α → α → Prop} : ∀ {l : List α},
    (∀ a ∈ l, ∀ b ∈ l, R a b → Q a b) → List.Chain' R l → List.Chain' Q l
  | [], _, _ => List.chain'_nil
  | [_], _, _ => List.chain'_singleton _
  | a :: b :: l, him, hch => by
    rw [List.chain'_cons] at hch ⊢
    exact ⟨him a (by simp) b (by simp) hch.1,
      chain'_imp_of_mem (fun x hx y hy => him x (by simp [hx]) y (by simp [hy])) hch.2⟩

lemma dirInsert_perm (e : Entry) : ∀ l : List Entry, e.name ∉ l.map Entry.name →
    (dirInsert e l).Perm (e :: l)
  | [], _ => List.Perm.refl _
  | f :: rest, h => by
    have hne : e.name ≠ f.name := by
      intro hc
      exact h (by simp [hc])
    have hnr : e.name ∉ rest.map Entry.name := by
      intro hc
      exact h (by simp [hc])
    by_cases hlt : nameLt e.name f.name
    · simp [dirInsert, hlt]
    · simp only [dirInsert, hlt, if_false, hne, ite_false]
      exact ((dirInsert_perm e rest hnr).cons f).trans (List.Perm.swap e f rest)

lemma foldDirInsert_perm : ∀ (l : List (String × List Nat)) (acc : List Entry),
    ((acc ++ l.map chunkEntry).map Entry.name).Nodup →
    (l.foldl (fun a u => dirInsert (chunkEntry u) a) acc).Perm (acc ++ l.map chunkEntry)
  | [], acc, _ => by simp
  | u :: l, acc, h => by
    have hmaps : ((acc ++ (u :: l).map chunkEntry).map Entry.name).Perm
        ((chunkEntry u).name :: ((acc ++ l.map chunkEntry).map Entry.name)) := by
      simp only [List.map_cons, List.map_append]
      exact List.perm_middle
    have hnodup1 : ((chunkEntry u).name :: ((acc ++ l.map chunkEntry).map Entry.name)).Nodup :=
      (hmaps.nodup_iff).mp h
    have hfresh : (chunkEntry u).name ∉ acc.map Entry.name := by
      intro hc
      exact (List.nodup_cons.mp hnodup1).1 (by simp [hc])
    have hperm1 : (dirInsert (chunkEntry u) acc).Perm (chunkEntry u :: acc) :=
      dirInsert_perm _ _ hfresh
    have hnodup2 : (((dirInsert (chunkEntry u) acc) ++ l.map chunkEntry).map Entry.name).Nodup := by
      have hperm2 : ((dirInsert (chunkEntry u) acc) ++ l.map chunkEntry).Perm
          (chunkEntry u :: (acc ++ l.map chunkEntry)) := hperm1.append_right _
      refine ((hperm2.map Entry.name).nodup_iff).mpr ?_
      simpa using hnodup1
    have ih := foldDirInsert_perm l (dirInsert (chunkEntry u) acc) hnodup2
    simp only [List.foldl_cons]
    refine ih.trans ?_
    refine ((hperm1.append_right _).trans ?_)
    simp only [List.cons_append, List.map_cons]
    exact List.perm_middle.symm

lemma uploadAll_cons_some : ∀ (l : List (String × List Nat)) (d : List Entry),
    l.foldl (fun d u => putChunk d u.1 u.2) (some d) =
      some (l.foldl (fun a u => dirInsert (chunkEntry u) a) d)
  | [], _ => rfl
  | u :: l, d => by
    simp only [List.foldl_cons]
    exact uploadAll_cons_some l (dirInsert (chunkEntry u) d)

lemma assembleLoop_ok (E : List Entry) : ∀ (names : List String) (acc : List Nat),
    (∀ n ∈ names, ∃ e c, (E.find? fun e' => e'.name = n) = some e ∧ e.content = some c) →
    assembleLoop E names acc =
      (Except.ok (acc ++ (names.map (contentOf E)).flatten),
        acc ++ (names.map (contentOf E)).flatten)
  | [], acc, _ => by simp [assembleLoop]
  | n :: rest, acc, h => by
    obtain ⟨e, c, hfind, hcont⟩ := h n (by simp)
    have hco : contentOf E n = c := by
      simp [contentOf, hfind, hcont]
    have ih := assembleLoop_ok E rest (acc ++ c) (fun m hm => h m (by simp [hm]))
    simp only [assembleLoop, hfind, hcont, ih, hco, List.map_cons, List.flatten_cons]
    simp [List.append_assoc]

lemma assembleLoop_congr (E F : List Entry) : ∀ (names : List String) (acc : List Nat),
    (∀ n ∈ names, (E.find? fun e => e.name = n) = (F.find? fun e => e.name = n)) →
    assembleLoop E names acc = assembleLoop F names acc
  | [], _, _ => rfl
  | n :: rest, acc, h => by
    have hn := h n (by simp)
    cases hf : (E.find? fun e => e.name = n) with
    | none => simp only [assembleLoop, ← hn, hf]
    | some e =>
      cases hc : e.content with
      | none => simp only [assembleLoop, ← hn, hf, hc]
      | some c =>
        simp only [assembleLoop, ← hn, hf, hc]
        exact assembleLoop_congr E F rest (acc ++ c) (fun m hm => h m (by simp [hm]))

/-! Helper lemmas connecting the code's sort to the specified ordering. -/

lemma pairwise_lt_of_le_ne {α : Type} (key : α → Int) (S : List α)
    (hle : List.Pairwise (fun a b => key a ≤ key b) S)
    (hnd : (S.map key).Nodup) :
    List.Pairwise (fun a b => key a < key b) S := by
  have hne : List.Pairwise (fun a b => key a ≠ key b) S := by
    rw [List.Nodup, List.pairwise_map] at hnd
    exact hnd
  exact (hle.and hne).imp (fun h => lt_of_le_of_ne h.1 h.2)

lemma sorted_unique_by_key {α : Type} (key : α → Int) (S T : List α)
    (hperm : S.Perm T)
    (hS : List.Pairwise (fun a b => key a < key b) S)
    (hT : List.Pairwise (fun a b => key a < key b) T) : S = T := by
  haveI : IsAntisymm α (fun a b => key a < key b) :=
    ⟨fun a b h h' => absurd (lt_trans h h') (lt_irrefl _)⟩
  exact List.eq_of_perm_of_sorted hperm hS hT

lemma chain_to_pairwise_le (S : List String)
    (hch : List.Chain' (fun a b => chunkLess b a = false) S)
    (hparse : ∀ n ∈ S, (chunkKey n).isSome = true) :
    List.Pairwise (fun a b => nameKey a ≤ nameKey b) S := by
  have hle : List.Chain' (fun a b => nameKey a ≤ nameKey b) S := by
    refine chain'_imp_of_mem ?_ hch
    intro a ha b hb hab
    obtain ⟨ka, hka⟩ := Option.isSome_iff_exists.mp (hparse a ha)
    obtain ⟨kb, hkb⟩ := Option.isSome_iff_exists.mp (hparse b hb)
    have hnlt : ¬ (kb < ka) := by
      intro hlt
      have hbt : chunkLess b a = true := by
        simp [chunkLess, hka, hkb]
        exact hlt
      rw [hbt] at hab
      cases hab
    simp only [nameKey, hka, hkb, Option.getD_some]
    omega
  haveI : IsTrans String (fun a b => nameKey a ≤ nameKey b) :=
    ⟨fun a b c h1 h2 => le_trans h1 h2⟩
  exact List.chain'_iff_pairwise.mp hle

lemma chunkNames_nodup (l : List (String × List Nat))
    (hd : (l.map fun u => goAtoi u.1).Nodup) :
    ((l.map chunkEntry).map Entry.name).Nodup := by
  have h1 : List.Pairwise (fun u v : String × List Nat => goAtoi u.1 ≠ goAtoi v.1) l := by
    rw [List.Nodup, List.pairwise_map] at hd
    exact hd
  have h2 : List.Pairwise (fun u v : String × List Nat => chunkName u.1 ≠ chunkName v.1) l :=
    h1.imp (fun hab hc => hab (by rw [chunkName_inj hc]))
  rw [List.map_map, List.Nodup, List.pairwise_map]
  simpa [Function.comp, chunkEntry] using h2

lemma find?_chunkEntry (l : List (String × List Nat)) (E : List Entry)
    (hE : E.Perm (l.map chunkEntry))
    (hd : (l.map fun u => goAtoi u.1).Nodup)
    (u : String × List Nat) (hu : u ∈ l) :
    (E.find? fun e' => e'.name = chunkName u.1) = some (chunkEntry u) := by
  apply find?_unique
  · exact hE.mem_iff.mpr (List.mem_map_of_mem _ hu)
  · simp [chunkEntry]
  · intro y hy hpy
    obtain ⟨v, hv, rfl⟩ := List.mem_map.mp (hE.mem_iff.mp hy)
    have hname : chunkName v.1 = chunkName u.1 := by simpa [chunkEntry] using hpy
    have hv1 : v.1 = u.1 := chunkName_inj hname
    have hvu : v = u := List.inj_on_of_nodup_map hd hv hu (by rw [hv1])
    rw [hvu]

lemma assemble_entries (l : List (String × List Nat)) (E : List Entry)
    (hE : E.Perm (l.map chunkEntry))
    (hp : ∀ u ∈ l, (goAtoi u.1).isSome = true)
    (hd : (l.map fun u => goAtoi u.1).Nodup) :
    (assembleChunks (some E)).result = Except.ok (specAssembled l) := by
  classical
  have hsel : List.filter isChunkFile E = E := by
    refine List.filter_eq_self.mpr ?_
    intro e he
    obtain ⟨u, hu, rfl⟩ := List.mem_map.mp (hE.mem_iff.mp he)
    simp [isChunkFile, chunkEntry, chunkName, goStartsWith_append]
  set N := l.map (fun u => chunkName u.1) with hN
  have hmapEN : (E.map Entry.name).Perm N := by
    refine (hE.map Entry.name).trans ?_
    rw [hN, List.map_map]
    have : (Entry.name ∘ chunkEntry) = fun u : String × List Nat => chunkName u.1 := by
      funext u; rfl
    rw [this]
  set S := goInsertionSort chunkLess (E.map Entry.name) with hS
  have hSN : S.Perm N := (goInsertionSort_perm chunkLess (E.map Entry.name)).trans hmapEN
  have hparseS : ∀ n ∈ S, (chunkKey n).isSome = true := by
    intro n hn
    obtain ⟨u, hu, rfl⟩ := List.mem_map.mp (hSN.mem_iff.mp hn)
    rw [chunkKey_chunkName]
    exact hp u hu
  have hchain : List.Chain' (fun a b => chunkLess b a = false) S := by
    rw [hS]
    exact goInsertionSort_chain chunkLess chunkLess_asymm (E.map Entry.name)
  have hpleS : List.Pairwise (fun a b => nameKey a ≤ nameKey b) S :=
    chain_to_pairwise_le S hchain hparseS
  have hkeysN : (N.map nameKey).Nodup := by
    have hmap : N.map nameKey = l.map uploadIndex := by
      rw [hN, List.map_map]
      refine List.map_congr_left ?_
      intro u _
      simp [Function.comp, nameKey, chunkKey_chunkName, uploadIndex]
    rw [hmap]
    have h1 : List.Pairwise (fun u v : String × List Nat => goAtoi u.1 ≠ goAtoi v.1) l := by
      rw [List.Nodup, List.pairwise_map] at hd
      exact hd
    rw [List.Nodup, List.pairwise_map]
    refine h1.imp_of_mem ?_
    intro a b ha hb hab hc
    obtain ⟨ka, hka⟩ := Option.isSome_iff_exists.mp (hp a ha)
    obtain ⟨kb, hkb⟩ := Option.isSome_iff_exists.mp (hp b hb)
    apply hab
    rw [hka, hkb]
    simp only [uploadIndex, hka, hkb, Option.getD_some] at hc
    rw [hc]
  have hkeysS : (S.map nameKey).Nodup := ((hSN.map nameKey).nodup_iff).mpr hkeysN
  have hltS : List.Pairwise (fun a b => nameKey a < nameKey b) S :=
    pairwise_lt_of_le_ne nameKey S hpleS hkeysS
  haveI instTot : IsTotal (String × List Nat) (fun u v => uploadIndex u ≤ uploadIndex v) :=
    ⟨fun a b => le_total _ _⟩
  haveI instTr : IsTrans (String × List Nat) (fun u v => uploadIndex u ≤ uploadIndex v) :=
    ⟨fun a b c h1 h2 => le_trans h1 h2⟩
  have hsorted : List.Pairwise (fun u v => uploadIndex u ≤ uploadIndex v) (specSortUploads l) :=
    List.sorted_insertionSort (fun u v => uploadIndex u ≤ uploadIndex v) l
  have hspecperm : (specSortUploads l).Perm l :=
    List.perm_insertionSort (fun u v => uploadIndex u ≤ uploadIndex v) l
  set T := (specSortUploads l).map (fun u => chunkName u.1) with hT
  have hTN : T.Perm N := by
    rw [hT, hN]
    exact hspecperm.map _
  have hpleT : List.Pairwise (fun a b => nameKey a ≤ nameKey b) T := by
    rw [hT, List.pairwise_map]
    refine hsorted.imp ?_
    intro a b h
    simpa [nameKey, chunkKey_chunkName, uploadIndex] using h
  have hkeysT : (T.map nameKey).Nodup := ((hTN.map nameKey).nodup_iff).mpr hkeysN
  have hltT : List.Pairwise (fun a b => nameKey a < nameKey b) T :=
    pairwise_lt_of_le_ne nameKey T hpleT hkeysT
  have hST : S = T := sorted_unique_by_key nameKey S T (hSN.trans hTN.symm) hltS hltT
  have hloop : ∀ n ∈ S, ∃ e c, (E.find? fun e' => e'.name = n) = some e ∧ e.content = some c := by
    intro n hn
    obtain ⟨u, hu, rfl⟩ := List.mem_map.mp (hSN.mem_iff.mp hn)
    exact ⟨chunkEntry u, u.2, find?_chunkEntry l E hE hd u hu, rfl⟩
  have hasm := assembleLoop_ok E S [] hloop
  have hfinal : S.map (contentOf E) = (specSortUploads l).map Prod.snd := by
    rw [hST, hT, List.map_map]
    refine List.map_congr_left ?_
    intro u hu
    have hul : u ∈ l := hspecperm.mem_iff.mp hu
    simp [Function.comp, contentOf, find?_chunkEntry l E hE hd u hul, chunkEntry]
  show (assembleChunks (some E)).result = _
  unfold assembleChunks
  simp only [selectChunks, hsel, ← hS, hasm, List.nil_append]
  rw [hfinal]
  rfl

lemma uploadAll_eq_some (u₀ : String × List Nat) (rest : List (String × List Nat)) :
    uploadAll (u₀ :: rest) =
      some (rest.foldl (fun a u => dirInsert (chunkEntry u) a) [chunkEntry u₀]) := by
  unfold uploadAll
  simp only [List.foldl_cons]
  exact uploadAll_cons_some rest _

lemma assemble_uploadAll (l : List (String × List Nat))
    (hp : ∀ u ∈ l, (goAtoi u.1).isSome = true)
    (hd : (l.map fun u => goAtoi u.1).Nodup)
    (hne : l ≠ []) :
    (assembleChunks (uploadAll l)).result = Except.ok (specAssembled l) := by
  obtain ⟨u₀, rest, rfl⟩ : ∃ u₀ rest, l = u₀ :: rest := by
    cases l with
    | nil => exact absurd rfl hne
    | cons a b => exact ⟨a, b, rfl⟩
  have hnames : (((u₀ :: rest).map chunkEntry).map Entry.name).Nodup := chunkNames_nodup _ hd
  have hE : (rest.foldl (fun a u => dirInsert (chunkEntry u) a) [chunkEntry u₀]).Perm
      ((u₀ :: rest).map chunkEntry) :=
    foldDirInsert_perm rest [chunkEntry u₀] hnames
  rw [uploadAll_eq_some]
  exact assemble_entries (u₀ :: rest) _ hE hp hd

lemma specSortUploads_perm_eq (l l' : List (String × List Nat))
    (hperm : l.Perm l')
    (hp : ∀ u ∈ l, (goAtoi u.1).isSome = true)
    (hd : (l.map fun u => goAtoi u.1).Nodup) :
    specSortUploads l = specSortUploads l' := by
  haveI instTot : IsTotal (String × List Nat) (fun u v => uploadIndex u ≤ uploadIndex v) :=
    ⟨fun a b => le_total _ _⟩
  haveI instTr : IsTrans (String × List Nat) (fun u v => uploadIndex u ≤ uploadIndex v) :=
    ⟨fun a b c h1 h2 => le_trans h1 h2⟩
  have hkeys : (l.map uploadIndex).Nodup := by
    have h1 : List.Pairwise (fun u v : String × List Nat => goAtoi u.1 ≠ goAtoi v.1) l := by
      rw [List.Nodup, List.pairwise_map] at hd
      exact hd
    rw [List.Nodup, List.pairwise_map]
    refine h1.imp_of_mem ?_
    intro a b ha hb hab hc
    obtain ⟨ka, hka⟩ := Option.isSome_iff_exists.mp (hp a ha)
    obtain ⟨kb, hkb⟩ := Option.isSome_iff_exists.mp (hp b hb)
    apply hab
    rw [hka, hkb]
    simp only [uploadIndex, hka, hkb, Option.getD_some] at hc
    rw [hc]
  have hA : (specSortUploads l).Perm l :=
    List.perm_insertionSort (fun u v => uploadIndex u ≤ uploadIndex v) l
  have hB : (specSortUploads l').Perm l' :=
    List.perm_insertionSort (fun u v => uploadIndex u ≤ uploadIndex v) l'
  have hsortA : List.Pairwise (fun u v => uploadIndex u ≤ uploadIndex v) (specSortUploads l) :=
    List.sorted_insertionSort _ l
  have hsortB : List.Pairwise (fun u v => uploadIndex u ≤ uploadIndex v) (specSortUploads l') :=
    List.sorted_insertionSort _ l'
  have hkA : ((specSortUploads l).map uploadIndex).Nodup :=
    ((hA.map uploadIndex).nodup_iff).mpr hkeys
  have hkB : ((specSortUploads l').map uploadIndex).Nodup := by
    refine ((hB.map uploadIndex).nodup_iff).mpr ?_
    exact ((hperm.map uploadIndex).nodup_iff).mp hkeys
  exact sorted_unique_by_key uploadIndex _ _
    (hA.trans (hperm.trans hB.symm))
    (pairwise_lt_of_le_ne uploadIndex _ hsortA hkA)
    (pairwise_lt_of_le_ne uploadIndex _ hsortB hkB)

/-! Claim theorems. -/

/-- Claim C1, counterexample.  The claim says unparseable chunk entries sort
after every parseable entry while parseable entries are sorted ascending by
index.  On the session listing `mixDir` (indices 10, unparseable `3x`, 5) the
claim demands sorted order `chunk_5, chunk_10, chunk_3x` and artifact
`[67, 65, 66]`; the code's comparator returns `false` for any pair involving
`chunk_3x`, so insertion sort leaves the listing untouched and the artifact is
`[65, 66, 67]` — the unparseable entry stays in the middle and the parseable
indices appear as 10 before 5. -/
theorem unparseable_chunk_not_sorted_last :
    goInsertionSort chunkLess (selectChunks mixDir) = ["chunk_10", "chunk_3x", "chunk_5"] ∧
    (assembleChunks (some mixDir)).result = Except.ok [65, 66, 67] ∧
    (assembleChunks (some mixDir)).result ≠ Except.ok [67, 65, 66] := by
  refine ⟨?_, ?_, ?_⟩ <;> decide

/-- Claim C1, amended.  In `assemble`, for every session of at most 12 chunks
(where `sort.Slice` runs insertion sort) whose chunk entries include names with
unparseable indices, the unparseable entries are still included — the sorted
chunk-name list is a permutation of the selected chunk names — but instead of
being placed after the parseable entries, every unparseable entry keeps exactly
its position in the directory listing (hence the relative order of unparseable
entries is preserved), and only entries with parseable indices are reordered
around them. -/
theorem unparseable_chunks_keep_their_position (entries : List Entry)
    (h12 : (selectChunks entries).length ≤ 12) :
    (goInsertionSort chunkLess (selectChunks entries)).Perm (selectChunks entries) ∧
    ∀ (i : Nat) (n : String), (selectChunks entries)[i]? = some n → chunkKey n = none →
      (goInsertionSort chunkLess (selectChunks entries))[i]? = some n := by
  refine ⟨goInsertionSort_perm _ _, fun i n hi hk => ?_⟩
  exact insFold_fixes_bad chunkLess (fun s => chunkKey s = none)
    (fun a b hab => chunkLess_bad_left a b hab)
    (fun a b hab => chunkLess_bad_right a b hab)
    (selectChunks entries) i n hi hk

/-- Claim C1, witness for the amended theorem at the concrete session
`mixDir`. -/
theorem unparseable_chunks_keep_their_position_witness :
    (selectChunks mixDir).length ≤ 12 ∧
    ((goInsertionSort chunkLess (selectChunks mixDir)).Perm (selectChunks mixDir) ∧
      ∀ (i : Nat) (n : String), (selectChunks mixDir)[i]? = some n → chunkKey n = none →
        (goInsertionSort chunkLess (selectChunks mixDir))[i]? = some n) :=
  ⟨by decide, unparseable_chunks_keep_their_position mixDir (by decide)⟩

/-- Claim C2, evaluation at the failing input.  A finish request over the
session `leakDir`, whose chunk `chunk_1` fails to read back mid-concatenation,
ends in a 500 error and removes the session directory, yet the partially
written artifact `[65]` remains on transient storage: `assembleChunks` has
already created and partially filled the artifact file, and `finishHandler`
registers `defer os.Remove(finalPath)` only on the success path.  This
contradicts the claimed resource invariant. -/
theorem finish_leaves_partial_artifact :
    (finishHandler "u" "f" "" "catbox" "" (some leakDir) (fun _ => "") (fun _ => ⟨none, none⟩)
        none false).response = Except.error (500, "error opening chunk chunk_1 for reading") ∧
    (finishHandler "u" "f" "" "catbox" "" (some leakDir) (fun _ => "") (fun _ => ⟨none, none⟩)
        none false).sessionDirAfter = none ∧
    (finishHandler "u" "f" "" "catbox" "" (some leakDir) (fun _ => "") (fun _ => ⟨none, none⟩)
        none false).tempLeft = [[65]] := by
  refine ⟨?_, ?_, ?_⟩ <;> decide

/-- Claim C3.  For every nonempty session whose chunk uploads carry distinct
parseable integer indices, and for all arrival orders, the assembled artifact's
bytes equal the concatenation of the chunks' bytes sorted by ascending numeric
index: assembly of the uploads equals the spec-side `specAssembled`, and any
permuted arrival order produces the same result. -/
theorem assembled_equals_index_sorted_concat (l l' : List (String × List Nat))
    (hp : ∀ u ∈ l, (goAtoi u.1).isSome = true)
    (hd : (l.map fun u => goAtoi u.1).Nodup)
    (hne : l ≠ [])
    (hperm : l.Perm l') :
    (assembleChunks (uploadAll l)).result = Except.ok (specAssembled l) ∧
    (assembleChunks (uploadAll l')).result = (assembleChunks (uploadAll l)).result := by
  have h1 := assemble_uploadAll l hp hd hne
  have hp' : ∀ u ∈ l', (goAtoi u.1).isSome = true := fun u hu => hp u (hperm.mem_iff.mpr hu)
  have hd' : (l'.map fun u => goAtoi u.1).Nodup := ((hperm.map _).nodup_iff).mp hd
  have hne' : l' ≠ [] := by
    intro h
    subst h
    exact hne hperm.eq_nil
  have h2 := assemble_uploadAll l' hp' hd' hne'
  have hspec : specAssembled l' = specAssembled l := by
    unfold specAssembled
    rw [specSortUploads_perm_eq l l' hperm hp hd]
  rw [h1, h2, hspec]
  exact ⟨rfl, rfl⟩

/-- Claim C3, witness: chunks submitted in order index 1 = "B", index 0 = "A",
index 2 = "C" assemble to "ABC" (`[65, 66, 67]`), and the in-order arrival
produces the same artifact. -/
theorem assembled_equals_index_sorted_concat_witness :
    (∀ u ∈ demoUploads, (goAtoi u.1).isSome = true) ∧
    (demoUploads.map fun u => goAtoi u.1).Nodup ∧
    demoUploads ≠ [] ∧
    demoUploads.Perm [("0", [65]), ("1", [66]), ("2", [67])] ∧
    specAssembled demoUploads = [65, 66, 67] ∧
    ((assembleChunks (uploadAll demoUploads)).result = Except.ok (specAssembled demoUploads) ∧
      (assembleChunks (uploadAll [("0", [65]), ("1", [66]), ("2", [67])])).result =
        (assembleChunks (uploadAll demoUploads)).result) :=
  ⟨by decide, by decide, by decide, by decide, by decide,
    assembled_equals_index_sorted_concat demoUploads [("0", [65]), ("1", [66]), ("2", [67])]
      (by decide) (by decide) (by decide) (by decide)⟩

/-- Claim C4, counterexample.  A session directory that exists but contains no
chunks is assembled successfully into an empty artifact, not rejected with a
no-chunks error: `os.ReadDir` only fails when the directory is missing, and the
empty chunk list flows through sort and concatenation without complaint. -/
theorem chunkless_directory_assembles_empty :
    (assembleChunks (some [])).result = Except.ok [] ∧
    ∀ e, (assembleChunks (some [])).result ≠ Except.error e := by
  refine ⟨by decide, fun e h => ?_⟩
  have h' : Except.ok ([] : List Nat) = Except.error e := h
  exact Except.noConfusion h'

/-- Claim C4, amended.  `assemble` fails with the no-chunks error exactly when
the session directory cannot be listed (it does not exist); a directory that
exists but holds no chunk files yields a successfully created empty
artifact. -/
theorem assemble_fails_only_when_directory_missing (entries : List Entry)
    (h : entries.filter isChunkFile = []) :
    (assembleChunks none).result = Except.error "no chunks found" ∧
    (assembleChunks (some entries)).result = Except.ok [] := by
  refine ⟨rfl, ?_⟩
  simp [assembleChunks, selectChunks, h, goInsertionSort, insFold, assembleLoop]

/-- Claim C4, witness for the amended theorem at a directory holding only a
non-chunk file. -/
theorem assemble_fails_only_when_directory_missing_witness :
    ([⟨"readme.txt", false, some [1]⟩] : List Entry).filter isChunkFile = [] ∧
    ((assembleChunks none).result = Except.error "no chunks found" ∧
      (assembleChunks (some [⟨"readme.txt", false, some [1]⟩])).result = Except.ok []) :=
  ⟨by decide,
    assemble_fails_only_when_directory_missing [⟨"readme.txt", false, some [1]⟩] (by decide)⟩

/-- Claim C5.  Every upload destined to the ephemeral backend (litterbox)
performs no fingerprinting, no cache lookup and no cache upsert, and is always
forwarded fresh — for every cache state, including one already holding a URL
for the same content. -/
theorem litterbox_never_touches_cache (userhash timeVal : String) (hashFn : List Nat → String)
    (content : List Nat) (cache : String → CacheRecord) (resp : Option HttpResp)
    (storeOk : Bool) :
    (processAndForwardFile "litterbox" userhash timeVal hashFn content cache resp storeOk).hashed
        = false ∧
    (processAndForwardFile "litterbox" userhash timeVal hashFn content cache resp storeOk).lookups
        = [] ∧
    (processAndForwardFile "litterbox" userhash timeVal hashFn content cache resp storeOk).upserts
        = [] ∧
    (processAndForwardFile "litterbox" userhash timeVal hashFn content cache resp storeOk).forwards
        = [("litterbox", goMultipartFields "litterbox" userhash timeVal)] :=
  litterbox_trace userhash timeVal hashFn content cache resp storeOk

/-- Claim C6.  A forward whose backend response carries a non-2xx status
returns an error containing the numeric status code and the raw response body,
and the dedup cache receives no upsert for that request. -/
theorem non2xx_forward_error_no_upsert (destination userhash timeVal body : String)
    (status : Nat) (pd : Option PomfParsed) (hashFn : List Nat → String) (content : List Nat)
    (cache : String → CacheRecord) (storeOk : Bool)
    (hknown : (urlMapLookup destination).isSome) (hnx : status < 200 ∨ 300 ≤ status) :
    (forwardToDestination destination userhash timeVal (some ⟨status, body, pd⟩)).result =
      Except.error ("upload failed with status " ++ toString status ++ ": " ++ body) ∧
    (toString status).data <:+: ("upload failed with status " ++ toString status ++ ": " ++ body).data ∧
    body.data <:+: ("upload failed with status " ++ toString status ++ ": " ++ body).data ∧
    (processAndForwardFile destination userhash timeVal hashFn content cache
        (some ⟨status, body, pd⟩) storeOk).upserts = [] := by
  have h200 : status ≠ 200 := by omega
  obtain ⟨u, hu⟩ := Option.isSome_iff_exists.mp hknown
  have he := forward_non200 destination userhash timeVal status body pd u hu h200
  exact ⟨he, (status_and_body_substrings status body).1, (status_and_body_substrings status body).2,
    upserts_empty_of_error destination userhash timeVal hashFn content cache storeOk _ _ he⟩

/-- Claim C6, witness at a 404 catbox response. -/
theorem non2xx_forward_error_no_upsert_witness :
    (urlMapLookup "catbox").isSome ∧ (404 < 200 ∨ 300 ≤ 404) ∧
    ((forwardToDestination "catbox" "" "1h" (some ⟨404, "bad", none⟩)).result =
        Except.error ("upload failed with status " ++ toString 404 ++ ": " ++ "bad") ∧
      (toString 404).data <:+: ("upload failed with status " ++ toString 404 ++ ": " ++ "bad").data ∧
      "bad".data <:+: ("upload failed with status " ++ toString 404 ++ ": " ++ "bad").data ∧
      (processAndForwardFile "catbox" "" "1h" (fun _ => "") [] (fun _ => ⟨none, none⟩)
          (some ⟨404, "bad", none⟩) false).upserts = []) :=
  ⟨by decide, by decide,
    non2xx_forward_error_no_upsert "catbox" "" "1h" "bad" 404 none (fun _ => "") []
      (fun _ => ⟨none, none⟩) false (by decide) (by decide)⟩

/-- Claim C7.  A cacheable upload whose forward succeeds but whose cache upsert
fails (`storeOk = false`) still returns the forwarded URL as a success
response; the failed write leaves no upsert. -/
theorem store_failure_swallowed (destination userhash timeVal url : String)
    (hashFn : List Nat → String) (content : List Nat) (cache : String → CacheRecord)
    (resp : Option HttpResp)
    (hc : destination = "catbox" ∨ destination = "pomf")
    (hmiss : cachedUrlFor destination (cache (hashFn content)) = "")
    (hfwd : (forwardToDestination destination userhash timeVal resp).result = Except.ok url) :
    (processAndForwardFile destination userhash timeVal hashFn content cache resp false).response =
      Except.ok url ∧
    (processAndForwardFile destination userhash timeVal hashFn content cache resp false).upserts
      = [] := by
  have hl : destination ≠ "litterbox" := by rcases hc with h | h <;> subst h <;> decide
  have hs : storeUrl false (hashFn content) destination url =
      Except.error "database insert/update failed" := by
    simp [storeUrl, hc]
  constructor <;> simp [processAndForwardFile, hl, hmiss, hfwd, hs]

/-- Claim C7, witness at a successful catbox forward with a failing store. -/
theorem store_failure_swallowed_witness :
    ("catbox" = "catbox" ∨ "catbox" = "pomf") ∧
    cachedUrlFor "catbox" ((fun _ => (⟨none, none⟩ : CacheRecord)) ((fun _ => "") ([] : List Nat))) = "" ∧
    (forwardToDestination "catbox" "" "1h" (some ⟨200, "https://files.catbox.moe/x", none⟩)).result =
      Except.ok "https://files.catbox.moe/x" ∧
    ((processAndForwardFile "catbox" "" "1h" (fun _ => "") [] (fun _ => ⟨none, none⟩)
        (some ⟨200, "https://files.catbox.moe/x", none⟩) false).response =
      Except.ok "https://files.catbox.moe/x" ∧
    (processAndForwardFile "catbox" "" "1h" (fun _ => "") [] (fun _ => ⟨none, none⟩)
        (some ⟨200, "https://files.catbox.moe/x", none⟩) false).upserts = []) :=
  ⟨by decide, by decide, by decide,
    store_failure_swallowed "catbox" "" "1h" "https://files.catbox.moe/x" (fun _ => "") []
      (fun _ => ⟨none, none⟩) (some ⟨200, "https://files.catbox.moe/x", none⟩)
      (by decide) (by decide) (by decide)⟩

/-- Claim C8.  A forward succeeds only on HTTP status exactly 200: any other
status — other 2xx codes included — yields an error carrying the status code
and the response body. -/
theorem forward_success_requires_exact_200 (destination userhash timeVal body : String)
    (status : Nat) (pd : Option PomfParsed)
    (hknown : (urlMapLookup destination).isSome) (h : status ≠ 200) :
    (forwardToDestination destination userhash timeVal (some ⟨status, body, pd⟩)).result =
      Except.error ("upload failed with status " ++ toString status ++ ": " ++ body) ∧
    (toString status).data <:+: ("upload failed with status " ++ toString status ++ ": " ++ body).data ∧
    body.data <:+: ("upload failed with status " ++ toString status ++ ": " ++ body).data := by
  obtain ⟨u, hu⟩ := Option.isSome_iff_exists.mp hknown
  exact ⟨forward_non200 destination userhash timeVal status body pd u hu h,
    status_and_body_substrings status body⟩

/-- Claim C8, witness at a 201 Created response, a 2xx code that is still
rejected. -/
theorem forward_success_requires_exact_200_witness :
    (urlMapLookup "catbox").isSome ∧ (201 ≠ 200) ∧
    ((forwardToDestination "catbox" "" "1h" (some ⟨201, "created", none⟩)).result =
        Except.error ("upload failed with status " ++ toString 201 ++ ": " ++ "created") ∧
      (toString 201).data <:+: ("upload failed with status " ++ toString 201 ++ ": " ++ "created").data ∧
      "created".data <:+: ("upload failed with status " ++ toString 201 ++ ": " ++ "created").data) :=
  ⟨by decide, by decide,
    forward_success_requires_exact_200 "catbox" "" "1h" "created" 201 none (by decide) (by decide)⟩

/-- Claim C9.  When no ttl is supplied (`time` form value empty), both the
finish handler and the direct handler pass `"1h"` to the ephemeral backend:
the forward to litterbox carries the multipart field `time=1h`. -/
theorem default_ttl_one_hour (uploadId filename userhash : String) (dir : Option (List Entry))
    (hashFn : List Nat → String) (cache : String → CacheRecord) (resp : Option HttpResp)
    (storeOk : Bool) (file c : List Nat)
    (hu : uploadId ≠ "") (hf : filename ≠ "")
    (ha : (assembleChunks dir).result = Except.ok c) :
    (∃ pr, (finishHandler uploadId filename userhash "litterbox" "" dir hashFn cache resp
        storeOk).pipe = some pr ∧
        pr.forwards = [("litterbox", goMultipartFields "litterbox" userhash "1h")]) ∧
    (∃ pr, (directHandler "litterbox" "" userhash (some file) hashFn cache resp storeOk).pipe
        = some pr ∧
        pr.forwards = [("litterbox", goMultipartFields "litterbox" userhash "1h")]) ∧
    ("time", "1h") ∈ goMultipartFields "litterbox" userhash "1h" := by
  refine ⟨⟨processAndForwardFile "litterbox" userhash "1h" hashFn c cache resp storeOk, ?_, ?_⟩,
    ⟨processAndForwardFile "litterbox" userhash "1h" hashFn file cache resp storeOk, ?_, ?_⟩, ?_⟩
  · simp [finishHandler, hu, hf, ha]
  · exact (litterbox_trace userhash "1h" hashFn c cache resp storeOk).2.2.2
  · simp [directHandler]
  · exact (litterbox_trace userhash "1h" hashFn file cache resp storeOk).2.2.2
  · simp [goMultipartFields]

/-- Claim C9, witness at a one-chunk session and a direct upload with no ttl
supplied. -/
theorem default_ttl_one_hour_witness :
    ("u" ≠ "") ∧ ("f" ≠ "") ∧
    (assembleChunks (some [⟨"chunk_0", false, some [65]⟩])).result = Except.ok [65] ∧
    ((∃ pr, (finishHandler "u" "f" "" "litterbox" "" (some [⟨"chunk_0", false, some [65]⟩])
          (fun _ => "") (fun _ => ⟨none, none⟩) none false).pipe = some pr ∧
        pr.forwards = [("litterbox", goMultipartFields "litterbox" "" "1h")]) ∧
    (∃ pr, (directHandler "litterbox" "" "" (some [66]) (fun _ => "") (fun _ => ⟨none, none⟩)
          none false).pipe = some pr ∧
        pr.forwards = [("litterbox", goMultipartFields "litterbox" "" "1h")]) ∧
    ("time", "1h") ∈ goMultipartFields "litterbox" "" "1h") :=
  ⟨by decide, by decide, by decide,
    default_ttl_one_hour "u" "f" "" (some [⟨"chunk_0", false, some [65]⟩]) (fun _ => "")
      (fun _ => ⟨none, none⟩) none false [66] [65] (by decide) (by decide) (by decide)⟩

/-- Claim C10.  Assembly considers only non-directory entries whose name starts
with `chunk_`: for a session listing with distinct names, removing every other
entry changes nothing about the assembly outcome (so junk files are silently
excluded, not included and not an error), and no such entry's name appears
among the selected chunk names. -/
theorem junk_entries_silently_ignored (entries : List Entry)
    (hnd : (entries.map Entry.name).Nodup) :
    assembleChunks (some entries) = assembleChunks (some (entries.filter isChunkFile)) ∧
    ∀ e ∈ entries, isChunkFile e = false → e.name ∉ selectChunks entries := by
  have hsel : selectChunks (entries.filter isChunkFile) = selectChunks entries := by
    unfold selectChunks
    rw [List.filter_filter]
    simp
  have hloopeq : assembleLoop entries (goInsertionSort chunkLess (selectChunks entries)) [] =
      assembleLoop (entries.filter isChunkFile)
        (goInsertionSort chunkLess (selectChunks entries)) [] := by
    apply assembleLoop_congr
    intro n hn
    have hnsel : n ∈ selectChunks entries :=
      (goInsertionSort_perm chunkLess (selectChunks entries)).mem_iff.mp hn
    obtain ⟨e, he, rfl⟩ := List.mem_map.mp hnsel
    have heE : e ∈ entries := (List.mem_filter.mp he).1
    have huniqE : ∀ y ∈ entries, (decide (y.name = e.name) = true) → y = e := by
      intro y hy hyn
      exact List.inj_on_of_nodup_map hnd hy heE (of_decide_eq_true hyn)
    rw [find?_unique _ e entries heE (by simp) huniqE,
    find?_unique _ e (entries.filter isChunkFile) he (by simp)
      (fun y hy hyn => huniqE y (List.mem_filter.mp hy).1 hyn)]
  constructor
  · have h1 : assembleChunks (some entries) =
        { result := (assembleLoop entries (goInsertionSort chunkLess (selectChunks entries)) []).1,
          temp := some (assembleLoop entries
            (goInsertionSort chunkLess (selectChunks entries)) []).2 } := rfl
    have h2 : assembleChunks (some (entries.filter isChunkFile)) =
        { result := (assembleLoop (entries.filter isChunkFile)
            (goInsertionSort chunkLess (selectChunks (entries.filter isChunkFile))) []).1,
          temp := some (assembleLoop (entries.filter isChunkFile)
            (goInsertionSort chunkLess (selectChunks (entries.filter isChunkFile))) []).2 } := rfl
    rw [h1, h2, hsel, hloopeq]
  · intro e he hbad hmem
    obtain ⟨e', he', hname⟩ := List.mem_map.mp hmem
    have hee : e' = e := List.inj_on_of_nodup_map hnd (List.mem_filter.mp he').1 he hname
    rw [hee] at he'
    have hv := (List.mem_filter.mp he').2
    rw [hbad] at hv
    cases hv

/-- Claim C10, witness at a listing holding one chunk and one junk file. -/
theorem junk_entries_silently_ignored_witness :
    (([⟨"chunk_0", false, some [65]⟩, ⟨"junk.txt", false, some [9]⟩] : List Entry).map
      Entry.name).Nodup ∧
    (assembleChunks (some [⟨"chunk_0", false, some [65]⟩, ⟨"junk.txt", false, some [9]⟩]) =
        assembleChunks (some (([⟨"chunk_0", false, some [65]⟩,
          ⟨"junk.txt", false, some [9]⟩] : List Entry).filter isChunkFile)) ∧
      ∀ e ∈ ([⟨"chunk_0", false, some [65]⟩, ⟨"junk.txt", false, some [9]⟩] : List Entry),
        isChunkFile e = false →
          e.name ∉ selectChunks [⟨"chunk_0", false, some [65]⟩, ⟨"junk.txt", false, some [9]⟩]) :=
  ⟨by decide,
    junk_entries_silently_ignored [⟨"chunk_0", false, some [65]⟩, ⟨"junk.txt", false, some [9]⟩]
      (by decide)⟩

end Fatbox
